import Mathlib

/-
  Verification development for the `relatable` crate of the terable repository.

  The crate builds a directed multi-relation graph over a filesystem tree:
  a tag-file scanning pass (`add_tags_to_graph`) followed by a filesystem
  walking pass (`add_file_structure_to_graph`), both writing into one
  deduplicating node registry (`HashSetGraph`).

  Paths are modelled as lists of components relative to the walked root;
  canonicalization (which can fail, e.g. on broken symlinks) is modelled as
  an environment-supplied partial identity.  Machinery that can fail or
  panic in the source (the `?` operator, `unwrap`, `expect`, `todo!()`) is
  modelled with the `RunResult` outcome type.
-/

/-- Splits a list of characters on the dot character.  Mirrors the component
splitting that `std::path::Path::file_stem` / `extension` perform on a file
name. -/
def splitOnDot : List Char → List (List Char)
  | [] => [[]]
  | c :: rest =>
    if c = '.' then [] :: splitOnDot rest
    else
      match splitOnDot rest with
      | [] => [[c]]
      | p :: ps => (c :: p) :: ps

/-- Rejoins dot-separated parts, inverse of `splitOnDot` up to structure. -/
def joinDots : List (List Char) → List Char
  | [] => []
  | [p] => p
  | p :: ps => p ++ '.' :: joinDots ps

/-- `Path::file_stem` on a file name: the whole name when there is no dot, or
when the name starts with a dot and has no further dot; otherwise everything
before the final dot. -/
def fileStem (name : String) : String :=
  let parts := splitOnDot name.data
  if parts.length ≤ 1 then name
  else if parts.length = 2 ∧ parts.headD [] = [] then name
  else String.mk (joinDots parts.dropLast)

/-- `Path::extension` on a file name: `none` when there is no dot, or when the
name starts with a dot and has no further dot; otherwise the part after the
final dot. -/
def extOf (name : String) : Option String :=
  let parts := splitOnDot name.data
  if parts.length ≤ 1 then none
  else if parts.length = 2 ∧ parts.headD [] = [] then none
  else some (String.mk (parts.getLastD []))

/-- Whether the glob pattern `*.tags` matches a file name (the name ends in
`.tags`; `*` may match the empty string under the glob crate's default
options). -/
def globTagsMatch (name : String) : Bool :=
  let parts := splitOnDot name.data
  decide (2 ≤ parts.length) && decide (parts.getLastD [] = "tags".data)

/-- Extension of a whole path: the extension of its final component. -/
def pathExt (p : List String) : Option String :=
  match p.getLast? with
  | some n => extOf n
  | none => none

/-- Node values of the tag graph, mirroring `enum TagGraphNode`. -/
inductive TagGraphNode where
  | File (path : List String)
  | Directory (path : List String)
  | RootDirectory
  | RootTag
  | Tag (name : String)
  deriving DecidableEq, Repr

/-- Edge labels, mirroring `enum Relation`. -/
inductive Relation where
  | Parent
  | Child
  | HasTag
  | TagAssignedTo
  deriving DecidableEq, Repr

/-- A directed edge of the backing graph, by node indices. -/
structure GEdge where
  src : Nat
  tgt : Nat
  rel : Relation
  deriving DecidableEq, Repr

/-- The backing `petgraph::stable_graph::StableGraph`: nodes in insertion
order (the position is the `NodeIndex`) and a directed edge list. -/
structure StableGraphM where
  nodes : List TagGraphNode
  edges : List GEdge
  deriving DecidableEq, Repr

/-- `StableGraph::update_edge` edge-list update: if an edge from `a` to `b`
already exists (looked up by endpoint pair alone), its weight is replaced;
otherwise a new edge is appended. -/
def updateEdgeList : List GEdge → Nat → Nat → Relation → List GEdge
  | [], a, b, w => [⟨a, b, w⟩]
  | e :: es, a, b, w =>
    if e.src = a ∧ e.tgt = b then ⟨a, b, w⟩ :: es
    else e :: updateEdgeList es a b w

/-- `StableGraph::update_edge`: add or update the edge from `a` to `b`. -/
def StableGraphM.update_edge (g : StableGraphM) (a b : Nat) (w : Relation) : StableGraphM :=
  ⟨g.nodes, updateEdgeList g.edges a b w⟩

/-- `StableGraph::add_node`: append the node, returning its index. -/
def StableGraphM.add_node (g : StableGraphM) (w : TagGraphNode) : StableGraphM × Nat :=
  (⟨g.nodes ++ [w], g.edges⟩, g.nodes.length)

/-- `HashSetGraph`: the backing graph plus the value-to-index map (the
`HashMap`, modelled as an association list queried by first match). -/
structure HashSetGraph where
  graph : StableGraphM
  map : List (TagGraphNode × Nat)
  deriving DecidableEq, Repr

/-- `HashMap::get` over the association-list model. -/
def findIdx? : List (TagGraphNode × Nat) → TagGraphNode → Option Nat
  | [], _ => none
  | p :: rest, w => if p.1 = w then some p.2 else findIdx? rest w

/-- `HashSetGraph::new`. -/
def HashSetGraph.new : HashSetGraph := ⟨⟨[], []⟩, []⟩

/-- `HashSetGraph::get_node`: return the index of a value-equal node if one is
registered, otherwise add the node to the graph and record it in the map. -/
def HashSetGraph.get_node (g : HashSetGraph) (w : TagGraphNode) : HashSetGraph × Nat :=
  match findIdx? g.map w with
  | some existing => (g, existing)
  | none =>
    let r := g.graph.add_node w
    (⟨r.1, (w, r.2) :: g.map⟩, r.2)

/-- `HashSetGraph::get_node_move`: identical lookup-or-insert, taking the
value by ownership in the source. -/
def HashSetGraph.get_node_move (g : HashSetGraph) (w : TagGraphNode) : HashSetGraph × Nat :=
  match findIdx? g.map w with
  | some existing => (g, existing)
  | none =>
    let r := g.graph.add_node w
    (⟨r.1, (w, r.2) :: g.map⟩, r.2)

/-- `HashSetGraph::update_edge`: resolve or create both endpoints via
`get_node`, then add or update the edge between them. -/
def HashSetGraph.update_edge (g : HashSetGraph) (a b : TagGraphNode) (w : Relation) :
    HashSetGraph :=
  let ra := g.get_node a
  let rb := ra.1.get_node b
  ⟨rb.1.graph.update_edge ra.2 rb.2 w, rb.1.map⟩

/-- `tag_graph.graph.update_edge(ax, bx, w)` as used directly by the builder
passes, on already-resolved node indices. -/
def HashSetGraph.updEdge (g : HashSetGraph) (a b : Nat) (w : Relation) : HashSetGraph :=
  ⟨g.graph.update_edge a b w, g.map⟩

mutual

/-- A filesystem entry: a file with readable line content (`none` models an
unreadable file) or a directory with its entries. -/
inductive FsNode where
  | file (name : String) (content : Option (List String))
  | dir (name : String) (entries : FsList)

/-- A directory's entry list, mutually defined with `FsNode` so that
recursion over the tree stays structural. -/
inductive FsList where
  | nil
  | cons (head : FsNode) (tail : FsList)

end

/-- Builds an `FsList` from a plain list of entries. -/
def FsList.ofList : List FsNode → FsList
  | [] => .nil
  | e :: rest => .cons e (FsList.ofList rest)

/-- Name of a filesystem entry. -/
def FsNode.name : FsNode → String
  | .file n _ => n
  | .dir n _ => n

/-- First entry with the given name, as directory lookups resolve names. -/
def FsList.find? : FsList → String → Option FsNode
  | .nil, _ => none
  | .cons e rest, c => if e.name = c then some e else FsList.find? rest c

/-- The entry names of a directory, in order. -/
def FsList.names : FsList → List String
  | .nil => []
  | .cons e rest => e.name :: FsList.names rest

/-- The environment a build runs against: the root directory tree plus the
failure behaviour of the OS calls — paths whose canonicalization fails
(broken symlinks and the like), directories whose enumeration fails
(permissions), and whether the glob pattern itself fails to compile. -/
structure FsEnv where
  tree : FsList
  canonFail : List (List String)
  readDirFail : List (List String)
  globBad : Bool

/-- `Path::canonicalize`: in the model paths are already root-relative
canonical components, so canonicalization is the identity where it succeeds
and fails exactly on the environment's `canonFail` paths. -/
def canonicalize (env : FsEnv) (p : List String) : Option (List String) :=
  if p ∈ env.canonFail then none else some p

/-- Finds the entry list of the directory at `p` (root itself is `[]`). -/
def lookupDir : FsList → List String → Option FsList
  | es, [] => some es
  | es, c :: cs =>
    match es.find? c with
    | some (.dir _ ces) => lookupDir ces cs
    | _ => none

/-- `fs::read_dir` yielding the entry names of the directory at `p`;
`none` (an IO error) on the environment's `readDirFail` paths and on
missing directories. -/
def readDirNames (env : FsEnv) (p : List String) : Option (List String) :=
  if p ∈ env.readDirFail then none
  else
    match lookupDir env.tree p with
    | some es => some es.names
    | none => none

/-- Finds the entry at path `p` in the tree. -/
def findEntry (tree : FsList) : List String → Option FsNode
  | [] => none
  | [c] => tree.find? c
  | c :: cs =>
    match tree.find? c with
    | some (.dir _ ces) => findEntry ces cs
    | _ => none

/-- `read_tagfile`: opens the file and reads its lines; `none` (an IO error)
when the path is missing, is a directory (the read yields `EISDIR`), or its
content is unreadable. -/
def read_tagfile (env : FsEnv) (p : List String) : Option (List String) :=
  match findEntry env.tree p with
  | some (.file _ (some ls)) => some ls
  | _ => none

/-- Outcome of running a fallible, panicking piece of the build: a normal
result, a propagated IO error (`?`), or a panic (`unwrap` / `expect` /
`todo!()`). -/
inductive RunResult (α : Type) where
  | ok : α → RunResult α
  | ioError : RunResult α
  | panic : RunResult α
  deriving DecidableEq, Repr

mutual

/-- The stream the tag-file glob (`glob("{root}/**/*.tags")`) yields while
traversing one entry: `some path` for each entry (file or directory) whose
name matches `*.tags`, and `none` (a `GlobError` item) where enumerating a
directory fails.  Directories matching the pattern are both yielded and
descended into. -/
def globGoN (env : FsEnv) : FsNode → List String → List (Option (List String))
  | .file n _, cur => if globTagsMatch n then [some (cur ++ [n])] else []
  | .dir n es, cur =>
    (if globTagsMatch n then [some (cur ++ [n])] else [])
      ++ (if (cur ++ [n]) ∈ env.readDirFail then [none] else globGo env es (cur ++ [n]))

def globGo (env : FsEnv) : FsList → List String → List (Option (List String))
  | .nil, _ => []
  | .cons e rest, cur => globGoN env e cur ++ globGo env rest cur

end

/-- The full glob stream for the build's root. -/
def globStream (env : FsEnv) : List (Option (List String)) :=
  if [] ∈ env.readDirFail then [none] else globGo env env.tree []

/-- The target-collection loop of `add_tags_to_graph`: for every entry name
of the tag file's directory, skip other tag files, and register (as a `File`
node) every entry whose stem or full name equals the tag file's stem.
Returns the grown registry, the collected target indices in order, and
whether any target was found. -/
def collectTargets (dirpath : List String) (stem : String) :
    List String → HashSetGraph → HashSetGraph × List Nat × Bool
  | [], g => (g, [], false)
  | n :: rest, g =>
    if extOf n = some "tags" then collectTargets dirpath stem rest g
    else if fileStem n = stem ∨ n = stem then
      let r := g.get_node_move (.File (dirpath ++ [n]))
      let r' := collectTargets dirpath stem rest r.1
      (r'.1, r.2 :: r'.2.1, true)
    else collectTargets dirpath stem rest g

/-- Attaches one tag to the attachment targets: `HasTag` from each target to
the tag, `TagAssignedTo` from the tag back to each target. -/
def attachTargets (t : Nat) : List Nat → HashSetGraph → HashSetGraph
  | [], g => g
  | a :: rest, g => attachTargets t rest ((g.updEdge a t .HasTag).updEdge t a .TagAssignedTo)

/-- Processes one parsed tag line: register the `Tag` node, wire it under
`RootTag` (the source issues this `update_edge` twice), then attach it to
every target. -/
def attachTag (tagRoot : Nat) (targets : List Nat) (g : HashSetGraph) (tag : String) :
    HashSetGraph :=
  let r := g.get_node_move (.Tag tag)
  attachTargets r.2 targets ((r.1.updEdge tagRoot r.2 .HasTag).updEdge tagRoot r.2 .HasTag)

/-- Processes all parsed tag lines of one tag file, in file order. -/
def attachTags (tagRoot : Nat) (targets : List Nat) : List String → HashSetGraph → HashSetGraph
  | [], g => g
  | tag :: rest, g => attachTags tagRoot targets rest (attachTag tagRoot targets g tag)

/-- The body of `add_tags_to_graph`'s loop for one successfully yielded tag
file: canonicalize it (`?`), register its containing directory, collect the
attachment targets (`dir.tags` targets the directory itself; otherwise the
sibling scan via `fs::read_dir` (`?`)), read the tag file (`?`), and attach
every tag. -/
def scanStep (env : FsEnv) (tagRoot : Nat) (tagfile : List String) (g : HashSetGraph) :
    RunResult HashSetGraph :=
  match canonicalize env tagfile with
  | none => .ioError
  | some canon =>
    let dirpath := canon.dropLast
    let rd := g.get_node_move (.Directory dirpath)
    match tagfile.getLast? with
    | none => .ok rd.1
    | some name =>
      if name = "dir.tags" then
        match read_tagfile env tagfile with
        | none => .ioError
        | some tags => .ok (attachTags tagRoot [rd.2] tags rd.1)
      else
        match readDirNames env dirpath with
        | none => .ioError
        | some names =>
          let rc := collectTargets dirpath (fileStem name) names rd.1
          match read_tagfile env tagfile with
          | none => .ioError
          | some tags => .ok (attachTags tagRoot rc.2.1 tags rc.1)

/-- The `for tagfile in glob(...)` loop: an `Err` item from the glob
iterator hits `todo!()` (panic); an IO error in the body aborts via `?`. -/
def scanLoop (env : FsEnv) (tagRoot : Nat) :
    List (Option (List String)) → HashSetGraph → RunResult HashSetGraph
  | [], g => .ok g
  | none :: _, _ => .panic
  | some t :: rest, g =>
    match scanStep env tagRoot t g with
    | .ok g' => scanLoop env tagRoot rest g'
    | .ioError => .ioError
    | .panic => .panic

/-- `add_tags_to_graph`: register `RootTag`, compile the glob pattern (a
compile failure hits `expect`, i.e. panics), then run the scan loop. -/
def add_tags_to_graph (env : FsEnv) (g : HashSetGraph) : RunResult HashSetGraph :=
  let r := g.get_node .RootTag
  if env.globBad then .panic
  else scanLoop env r.2 (globStream env) r.1

mutual

/-- The stream `WalkDir::new(root)` yields while visiting one entry
(depth-first, an entry before its children): `some (path, depth, isDir)`
per visited entry, and `none` (an `Err` item) where enumerating a
directory's contents fails, in which case that directory's children are
not visited. -/
def walkGoN (env : FsEnv) : FsNode → List String → Nat → List (Option (List String × Nat × Bool))
  | .file n _, cur, d => [some (cur ++ [n], d, false)]
  | .dir n es, cur, d =>
    some (cur ++ [n], d, true)
      :: (if (cur ++ [n]) ∈ env.readDirFail then [none] else walkGo env es (cur ++ [n]) (d + 1))

/-- The walk stream of a directory's entry list, in order. -/
def walkGo (env : FsEnv) : FsList → List String → Nat → List (Option (List String × Nat × Bool))
  | .nil, _, _ => []
  | .cons e rest, cur, d => walkGoN env e cur d ++ walkGo env rest cur d

end

/-- The full walk stream: the root itself at depth 0, then its contents. -/
def walkStream (env : FsEnv) : List (Option (List String × Nat × Bool)) :=
  some ([], 0, true) :: (if [] ∈ env.readDirFail then [none] else walkGo env env.tree [] 1)

/-- The body of `add_file_structure_to_graph`'s loop for one walk item.  An
`Err` item is logged and skipped.  For an `Ok` entry: canonicalize
(`unwrap`, panics on failure), skip entries with the tag-file extension,
register a `Directory` or `File` node, then wire the entry to
`RootDirectory` (depth 0) or to its canonicalized parent directory
(`unwrap`, panics on failure). -/
def walkStep (env : FsEnv) (dirRoot : Nat) (g : HashSetGraph) :
    Option (List String × Nat × Bool) → RunResult HashSetGraph
  | none => .ok g
  | some (p, depth, isDir) =>
    match canonicalize env p with
    | none => .panic
    | some path =>
      if pathExt path = some "tags" then .ok g
      else
        let rn :=
          if isDir then g.get_node_move (.Directory path)
          else g.get_node_move (.File path)
        if depth = 0 then
          .ok ((rn.1.updEdge dirRoot rn.2 .Child).updEdge rn.2 dirRoot .Parent)
        else
          match canonicalize env path.dropLast with
          | none => .panic
          | some pp =>
            let rp := rn.1.get_node_move (.Directory pp)
            .ok ((rp.1.updEdge rp.2 rn.2 .Child).updEdge rn.2 rp.2 .Parent)

/-- The `for entry in WalkDir::new(root)` loop. -/
def walkLoop (env : FsEnv) (dirRoot : Nat) :
    List (Option (List String × Nat × Bool)) → HashSetGraph → RunResult HashSetGraph
  | [], g => .ok g
  | item :: rest, g =>
    match walkStep env dirRoot g item with
    | .ok g' => walkLoop env dirRoot rest g'
    | .ioError => .ioError
    | .panic => .panic

/-- `add_file_structure_to_graph`: register `RootDirectory`, then run the
walk loop over the whole stream. -/
def add_file_structure_to_graph (env : FsEnv) (g : HashSetGraph) : RunResult HashSetGraph :=
  let r := g.get_node .RootDirectory
  walkLoop env r.2 (walkStream env) r.1

/-- `get_tagged_files`: the public entry point — the tag scan, then the
filesystem walk, over one shared registry; either pass's error or panic
surfaces unchanged. -/
def get_tagged_files (env : FsEnv) : RunResult HashSetGraph :=
  match add_tags_to_graph env HashSetGraph.new with
  | .ok g => add_file_structure_to_graph env g
  | .ioError => .ioError
  | .panic => .panic

/-- The canonical path carried by a path-bearing node. -/
def nodePathOf : TagGraphNode → Option (List String)
  | .File p => some p
  | .Directory p => some p
  | _ => none

/-- A successful build outcome satisfying a boolean property of the graph. -/
def okSat (r : RunResult HashSetGraph) (p : HashSetGraph → Bool) : Bool :=
  match r with
  | .ok g => p g
  | _ => false

/-- Whether the graph has an edge labelled `r` from a node with value `a` to
a node with value `b`. -/
def edgeBetween (g : HashSetGraph) (a b : TagGraphNode) (r : Relation) : Bool :=
  g.graph.edges.any fun e =>
    decide (g.graph.nodes.get? e.src = some a)
      && decide (g.graph.nodes.get? e.tgt = some b)
      && decide (e.rel = r)

/-- Root containing the tag file `img.tags` (one line, `favorite`) and a
directory literally named `img`, with no OS failures. -/
def envDirTarget : FsEnv :=
  ⟨.ofList [.file "img.tags" (some ["favorite"]), .dir "img" .nil], [], [], false⟩

/-- C1: the claim states that any canonical path referenced by both builder
passes resolves to the same handle and yields exactly one node — in
particular a directory sibling selected as a stem-match target.  The code
violates this: the scanner registers the stem-matched directory `img` as
`File {img}` while the walker registers it as `Directory {img}`, so the
final graph holds two distinct nodes for the single canonical path `img`. -/
theorem c1_directory_stem_target_yields_two_nodes :
    okSat (get_tagged_files envDirTarget) (fun g =>
      decide (TagGraphNode.File ["img"] ∈ g.graph.nodes)
        && decide (TagGraphNode.Directory ["img"] ∈ g.graph.nodes)
        && decide ((g.graph.nodes.filter (fun w => nodePathOf w = some ["img"])).length = 2))
      = true := by
  decide

/-- C2: the claim states that inserting an edge with one relation between an
ordered node pair never overwrites an existing edge with a different
relation on the same ordered pair.  The code violates this: `update_edge`
resolves the edge by endpoint pair alone, so a `HasTag` edge followed by
`TagAssignedTo` on the same ordered pair leaves a single edge whose label
has been overwritten to `TagAssignedTo`. -/
theorem c2_update_edge_overwrites_distinct_relation :
    ((HashSetGraph.new.update_edge (.Tag "a") (.Tag "b") .HasTag).update_edge
        (.Tag "a") (.Tag "b") .TagAssignedTo).graph.edges
      = [⟨0, 1, .TagAssignedTo⟩] := by
  decide

/-- Root containing `img.png`, extensionless `img`, `image.png`, and
`img.tags` with the single line `favorite`. -/
def envStem : FsEnv :=
  ⟨.ofList [.file "img.png" (some []), .file "img" (some []), .file "image.png" (some []),
    .file "img.tags" (some ["favorite"])], [], [], false⟩

/-- C3: in a directory holding `img.png`, extensionless `img`, `image.png`
and `img.tags` containing the line `favorite`, the built graph attaches
`Tag favorite` to the nodes of `img.png` and `img` (a `HasTag` edge from
each target and a `TagAssignedTo` edge back) and attaches no such edge to
the node of `image.png`. -/
theorem c3_stem_matching :
    okSat (get_tagged_files envStem) (fun g =>
      edgeBetween g (.File ["img.png"]) (.Tag "favorite") .HasTag
        && edgeBetween g (.Tag "favorite") (.File ["img.png"]) .TagAssignedTo
        && edgeBetween g (.File ["img"]) (.Tag "favorite") .HasTag
        && edgeBetween g (.Tag "favorite") (.File ["img"]) .TagAssignedTo
        && !(edgeBetween g (.File ["image.png"]) (.Tag "favorite") .HasTag)
        && !(edgeBetween g (.Tag "favorite") (.File ["image.png"]) .TagAssignedTo))
      = true := by
  decide

/-- Root containing one entry whose canonicalization fails (a broken
symlink): the walker yields it as an `Ok` entry but `canonicalize().unwrap()`
fails. -/
def envBroken : FsEnv := ⟨.ofList [.file "broken" (some [])], [["broken"]], [], false⟩

/-- C4: the claim states that every per-entry failure in the walker is
logged and skipped and that no per-entry failure panics.  Counterexample: a
broken symlink is yielded as an `Ok` entry, its canonicalization fails, and
the `unwrap` in the walker panics — the whole build terminates by panic
instead of skipping that entry. -/
theorem c4_counterexample_canonicalize_panics :
    get_tagged_files envBroken = .panic := by
  decide

/-- C8: the borrowing lookup `get_node` and the consuming lookup
`get_node_move` behave identically on every value and registry state: the
same handle is returned and the registry is left in the same state. -/
theorem c8_get_node_forms_agree (g : HashSetGraph) (w : TagGraphNode) :
    g.get_node w = g.get_node_move w :=
  rfl

/-- Root whose subdirectory `sub` cannot be enumerated, so the tag-file glob
iterator yields an `Err` item. -/
def envGlobErr : FsEnv := ⟨.ofList [.dir "sub" .nil], [], [["sub"]], false⟩

/-- Root whose glob pattern fails to compile (`expect` panics). -/
def envGlobBad : FsEnv := ⟨.nil, [], [], true⟩

/-- C9: there are inputs on which the build terminates by panic rather than
by returning an error value — a per-entry `Err` yielded by the tag-file glob
enumeration reaches the unconditional `todo!()`, and a glob pattern compile
failure reaches the `expect` panic. -/
theorem c9_panic_reachable :
    get_tagged_files envGlobErr = .panic ∧ get_tagged_files envGlobBad = .panic :=
  ⟨by decide, by decide⟩

/-- Root containing a directory literally named `a.tags` with a child file
`b`. -/
def envTagsDir : FsEnv :=
  ⟨.ofList [.dir "a.tags" (.ofList [.file "b" (some [])])], [], [], false⟩

/-- C6: the claim states that an entry with the tag-file extension receives
no `Parent` or `Child` edge from the walker pass, including when it is a
directory whose children are walked.  Counterexample: the walker skips the
directory `a.tags` at its own visit but still walks its child `b`, and
wiring `b` to its parent registers a `Directory {a.tags}` node and creates
`Child` and `Parent` edges incident to it. -/
theorem c6_counterexample_tags_directory_gets_edges :
    okSat (add_file_structure_to_graph envTagsDir HashSetGraph.new) (fun g =>
      edgeBetween g (.Directory ["a.tags"]) (.File ["a.tags", "b"]) .Child
        && edgeBetween g (.File ["a.tags", "b"]) (.Directory ["a.tags"]) .Parent)
      = true := by
  decide

/-- C6 (amended): every walked entry whose extension marks it as a tag file
and whose canonicalization succeeds is skipped at its own visit — processing
it leaves the registry untouched and the walk continues over the remaining
entries.  (Its children, however, are still walked and may wire edges to its
directory node, as the counterexample shows.) -/
theorem c6_walker_skips_tags_entry_at_own_visit
    (env : FsEnv) (i : Nat) (p : List String) (d : Nat) (b : Bool)
    (rest : List (Option (List String × Nat × Bool))) (g : HashSetGraph)
    (hext : pathExt p = some "tags") (hcanon : p ∉ env.canonFail) :
    walkLoop env i (some (p, d, b) :: rest) g = walkLoop env i rest g := by
  simp [walkLoop, walkStep, canonicalize, hcanon, hext]

/-- C6 witness: the `a.tags` directory entry itself is skipped by the walk
loop at its own visit. -/
theorem c6_walker_skips_tags_entry_witness :
    walkLoop envTagsDir 0 [some (["a.tags"], 1, true)] HashSetGraph.new
      = walkLoop envTagsDir 0 [] HashSetGraph.new :=
  c6_walker_skips_tags_entry_at_own_visit envTagsDir 0 ["a.tags"] 1 true [] HashSetGraph.new
    (by decide) (by decide)

/-- C4 (amended): errors yielded by the walk iterator itself (an `Err` item,
e.g. a directory whose contents cannot be read) are logged and skipped and
the walk continues exactly as if the item were absent; but a
canonicalization failure of a successfully yielded entry is not skipped —
it aborts the walk by panic (`unwrap`). -/
theorem c4_walker_error_entries_skipped_canon_panics :
    (∀ (env : FsEnv) (i : Nat) (xs ys : List (Option (List String × Nat × Bool)))
        (g : HashSetGraph),
      walkLoop env i (xs ++ none :: ys) g = walkLoop env i (xs ++ ys) g)
    ∧ (∀ (env : FsEnv) (i : Nat) (p : List String) (d : Nat) (b : Bool)
        (rest : List (Option (List String × Nat × Bool))) (g : HashSetGraph),
      canonicalize env p = none → walkLoop env i (some (p, d, b) :: rest) g = .panic) := by
  constructor
  · intro env i xs ys g
    induction xs generalizing g with
    | nil => simp [walkLoop, walkStep]
    | cons a xs ih =>
      simp only [List.cons_append, walkLoop]
      cases walkStep env i g a <;> simp [ih]
  · intro env i p d b rest g hc
    simp [walkLoop, walkStep, hc]

/-- C4 witness: a walker `Err` item is skipped with the walk unchanged, and
a concrete entry with failing canonicalization panics. -/
theorem c4_walker_error_entries_witness :
    (walkLoop envBroken 0 ([] ++ none :: []) HashSetGraph.new
        = walkLoop envBroken 0 ([] ++ []) HashSetGraph.new)
    ∧ walkLoop envBroken 0 [some (["broken"], 1, false)] HashSetGraph.new = .panic :=
  ⟨c4_walker_error_entries_skipped_canon_panics.1 envBroken 0 [] [] HashSetGraph.new,
    c4_walker_error_entries_skipped_canon_panics.2 envBroken 0 ["broken"] 1 false []
      HashSetGraph.new (by decide)⟩

/-- One tag-file scan step returns the propagated IO error whenever its
canonicalization fails, its sibling enumeration fails, or its own read
fails. -/
theorem scanStep_io_of_failure (env : FsEnv) (tagRoot : Nat) (t : List String)
    (g : HashSetGraph)
    (h : t ∈ env.canonFail
      ∨ (t ∉ env.canonFail
          ∧ (∃ nm, t.getLast? = some nm ∧ nm ≠ "dir.tags")
          ∧ readDirNames env t.dropLast = none)
      ∨ (t ∉ env.canonFail ∧ t.getLast? ≠ none
          ∧ (t.getLast? = some "dir.tags" ∨ ∃ ns, readDirNames env t.dropLast = some ns)
          ∧ read_tagfile env t = none)) :
    scanStep env tagRoot t g = .ioError := by
  rcases h with hc | ⟨hc, ⟨nm, hlast, hnm⟩, hrd⟩ | ⟨hc, hlast, hrd, hrt⟩
  · simp [scanStep, canonicalize, hc]
  · simp [scanStep, canonicalize, hc, hlast, hnm, hrd]
  · match hl : t.getLast? with
    | none => exact absurd hl hlast
    | some nm =>
      by_cases hdt : nm = "dir.tags"
      · simp [scanStep, canonicalize, hc, hl, hdt, hrt]
      · rcases hrd with hrd | ⟨ns, hns⟩
        · rw [hl] at hrd
          exact absurd (Option.some.injEq .. ▸ hrd) (by simpa using hdt)
        · simp [scanStep, canonicalize, hc, hl, hdt, hns, hrt]

/-- C5: during the tag-file scan, a path-canonicalization failure, a
directory-read failure, or a tag-file open/read failure aborts the entire
build: the loop stops with the IO error, and `get_tagged_files` surfaces it
to the caller without returning any graph. -/
theorem c5_scan_io_failures_abort :
    (∀ (env : FsEnv) (tagRoot : Nat) (t : List String)
        (rest : List (Option (List String))) (g : HashSetGraph),
      (t ∈ env.canonFail
        ∨ (t ∉ env.canonFail
            ∧ (∃ nm, t.getLast? = some nm ∧ nm ≠ "dir.tags")
            ∧ readDirNames env t.dropLast = none)
        ∨ (t ∉ env.canonFail ∧ t.getLast? ≠ none
            ∧ (t.getLast? = some "dir.tags" ∨ ∃ ns, readDirNames env t.dropLast = some ns)
            ∧ read_tagfile env t = none)) →
      scanLoop env tagRoot (some t :: rest) g = .ioError)
    ∧ (∀ env : FsEnv,
        add_tags_to_graph env HashSetGraph.new = .ioError →
        get_tagged_files env = .ioError) := by
  constructor
  · intro env tagRoot t rest g h
    simp [scanLoop, scanStep_io_of_failure env tagRoot t g h]
  · intro env h
    simp [get_tagged_files, h]

/-- Root whose single tag file `a.tags` has a failing canonicalization. -/
def envCanonFailTag : FsEnv :=
  ⟨.ofList [.file "a.tags" (some ["x"])], [["a.tags"]], [], false⟩

/-- C5 witness: with a tag file whose canonicalization fails, the scan loop
stops with the IO error and the public entry point returns it. -/
theorem c5_scan_io_failures_witness :
    scanLoop envCanonFailTag 0 [some ["a.tags"]] HashSetGraph.new = .ioError
    ∧ get_tagged_files envCanonFailTag = .ioError :=
  ⟨c5_scan_io_failures_abort.1 envCanonFailTag 0 ["a.tags"] [] HashSetGraph.new
      (Or.inl (by decide)),
    c5_scan_io_failures_abort.2 envCanonFailTag (by decide)⟩

/-- Lookup into the left part of an append. -/
theorem get?_append_left {α : Type} (l l' : List α) (i : Nat) (a : α)
    (h : l.get? i = some a) : (l ++ l').get? i = some a := by
  induction l generalizing i with
  | nil => simp [List.get?] at h
  | cons x xs ih =>
    cases i with
    | zero => simpa using h
    | succ j => simpa using ih j (by simpa using h)

/-- Lookup of the appended element at the old length. -/
theorem get?_concat_self {α : Type} (l : List α) (a : α) :
    (l ++ [a]).get? l.length = some a := by
  induction l with
  | nil => rfl
  | cons x xs ih => simp [ih]

/-- A successful positional lookup yields a member. -/
theorem mem_of_get? {α : Type} (l : List α) (i : Nat) (a : α)
    (h : l.get? i = some a) : a ∈ l := by
  induction l generalizing i with
  | nil => simp [List.get?] at h
  | cons x xs ih =>
    cases i with
    | zero => simp at h; simp [h]
    | succ j => exact List.mem_cons_of_mem x (ih j (by simpa using h))

/-- A successful positional lookup is within bounds. -/
theorem lt_length_of_get? {α : Type} (l : List α) (i : Nat) (a : α)
    (h : l.get? i = some a) : i < l.length := by
  induction l generalizing i with
  | nil => simp [List.get?] at h
  | cons x xs ih =>
    cases i with
    | zero => simp
    | succ j => simpa using ih j (by simpa using h)

/-- The freshly updated edge is always present after `update_edge`. -/
theorem updateEdgeList_mem_self (es : List GEdge) (a b : Nat) (w : Relation) :
    (⟨a, b, w⟩ : GEdge) ∈ updateEdgeList es a b w := by
  induction es with
  | nil => simp [updateEdgeList]
  | cons e es ih =>
    by_cases h : e.src = a ∧ e.tgt = b
    · simp [updateEdgeList, h]
    · simp only [updateEdgeList, if_neg h]
      exact List.mem_cons_of_mem e ih

/-- An edge on a different ordered endpoint pair survives `update_edge`. -/
theorem updateEdgeList_mem_other (es : List GEdge) (a b : Nat) (w : Relation)
    (e : GEdge) (he : e ∈ es) (hne : ¬(e.src = a ∧ e.tgt = b)) :
    e ∈ updateEdgeList es a b w := by
  induction es with
  | nil => simp at he
  | cons x es ih =>
    by_cases h : x.src = a ∧ x.tgt = b
    · simp only [updateEdgeList, if_pos h]
      rcases List.mem_cons.1 he with rfl | hm
      · exact absurd h hne
      · exact List.mem_cons_of_mem _ hm
    · simp only [updateEdgeList, if_neg h]
      rcases List.mem_cons.1 he with rfl | hm
      · exact List.mem_cons_self _ _
      · exact List.mem_cons_of_mem _ (ih hm)

/-- Every edge present after `update_edge` was present before or is the
updated edge. -/
theorem mem_of_updateEdgeList (es : List GEdge) (a b : Nat) (w : Relation)
    (e : GEdge) (h : e ∈ updateEdgeList es a b w) : e ∈ es ∨ e = ⟨a, b, w⟩ := by
  induction es with
  | nil => simp [updateEdgeList] at h; exact Or.inr h
  | cons x es ih =>
    by_cases hx : x.src = a ∧ x.tgt = b
    · simp only [updateEdgeList, if_pos hx] at h
      rcases List.mem_cons.1 h with rfl | hm
      · exact Or.inr rfl
      · exact Or.inl (List.mem_cons_of_mem _ hm)
    · simp only [updateEdgeList, if_neg hx] at h
      rcases List.mem_cons.1 h with rfl | hm
      · exact Or.inl (List.mem_cons_self _ _)
      · rcases ih hm with h' | h'
        · exact Or.inl (List.mem_cons_of_mem _ h')
        · exact Or.inr h'

/-- A `HasTag` edge from `a` to `ti` survives any later
`update_edge a tj HasTag`. -/
theorem hasTag_edge_pres (es : List GEdge) (a ti tj : Nat)
    (h : (⟨a, ti, .HasTag⟩ : GEdge) ∈ es) :
    (⟨a, ti, .HasTag⟩ : GEdge) ∈ updateEdgeList es a tj .HasTag := by
  by_cases hij : tj = ti
  · subst hij; exact updateEdgeList_mem_self es a tj .HasTag
  · exact updateEdgeList_mem_other es a tj .HasTag _ h (by simp [Ne.symm hij])

/-- Map soundness: every index recorded in the value-to-index map points at
a node carrying exactly that value. -/
def MapSound (g : HashSetGraph) : Prop :=
  ∀ w i, findIdx? g.map w = some i → g.graph.nodes.get? i = some w

/-- Map completeness: every registered node value is findable in the map. -/
def MapComplete (g : HashSetGraph) : Prop :=
  ∀ w, w ∈ g.graph.nodes → ∃ i, findIdx? g.map w = some i

/-- No value occurs twice among the nodes. -/
def NodesOnce (g : HashSetGraph) : Prop :=
  ∀ w, g.graph.nodes.count w ≤ 1

/-- The registry invariant: the value-to-index map is a sound and complete
index of the node list, and node values are unduplicated. -/
def InvReg (g : HashSetGraph) : Prop :=
  MapSound g ∧ MapComplete g ∧ NodesOnce g

/-- Extension order between registry states: the invariant is preserved and
no registered node value is lost. -/
def RegExt (g g' : HashSetGraph) : Prop :=
  (InvReg g → InvReg g') ∧ ∀ v, v ∈ g.graph.nodes → v ∈ g'.graph.nodes

theorem RegExt.refl (g : HashSetGraph) : RegExt g g :=
  ⟨id, fun _ h => h⟩

theorem RegExt.trans {g1 g2 g3 : HashSetGraph} (h1 : RegExt g1 g2) (h2 : RegExt g2 g3) :
    RegExt g1 g3 :=
  ⟨fun h => h2.1 (h1.1 h), fun v hv => h2.2 v (h1.2 v hv)⟩

/-- The empty registry satisfies the invariant. -/
theorem invReg_new : InvReg HashSetGraph.new := by
  refine ⟨fun w i h => ?_, fun w h => ?_, fun w => ?_⟩
  · simp [HashSetGraph.new, findIdx?] at h
  · simp [HashSetGraph.new] at h
  · simp [HashSetGraph.new]

/-- `get_node` preserves the registry invariant and loses no node. -/
theorem ext_get_node (g : HashSetGraph) (w : TagGraphNode) :
    RegExt g (g.get_node w).1 := by
  unfold HashSetGraph.get_node
  cases hf : findIdx? g.map w with
  | some i => exact RegExt.refl g
  | none =>
    simp only [StableGraphM.add_node]
    constructor
    · rintro ⟨hs, hcm, hco⟩
      refine ⟨fun v i h => ?_, fun v hv => ?_, fun v => ?_⟩
      · simp only [findIdx?] at h
        by_cases hvw : w = v
        · subst hvw
          simp at h
          subst h
          exact get?_concat_self g.graph.nodes w
        · rw [if_neg (by simpa using hvw)] at h
          exact get?_append_left _ _ _ _ (hs v i h)
      · rcases List.mem_append.1 hv with hv | hv
        · rcases hcm v hv with ⟨i, hi⟩
          by_cases hvw : w = v
          · exact ⟨g.graph.nodes.length, by simp [findIdx?, hvw]⟩
          · exact ⟨i, by simp [findIdx?, hvw, hi]⟩
        · simp at hv
          subst hv
          exact ⟨g.graph.nodes.length, by simp [findIdx?]⟩
      · rw [List.count_append]
        by_cases hvw : v = w
        · subst hvw
          have hnm : v ∉ g.graph.nodes := by
            intro hmem
            rcases hcm v hmem with ⟨i, hi⟩
            rw [hf] at hi
            exact Option.noConfusion hi
          simp [List.count_eq_zero.2 hnm]
        · have h0 : List.count v [w] = 0 := by
            simp [List.count_singleton', hvw]
          have h1 := hco v
          omega
    · intro v hv
      exact List.mem_append_left _ hv

/-- `get_node_move` preserves the registry invariant and loses no node. -/
theorem ext_get_node_move (g : HashSetGraph) (w : TagGraphNode) :
    RegExt g (g.get_node_move w).1 :=
  ext_get_node g w

/-- `updEdge` (direct edge update on the backing graph) leaves nodes and map
untouched. -/
theorem ext_updEdge (g : HashSetGraph) (a b : Nat) (w : Relation) :
    RegExt g (g.updEdge a b w) := by
  constructor
  · rintro ⟨hs, hcm, hco⟩
    exact ⟨fun v i h => hs v i h, fun v hv => hcm v hv, fun v => hco v⟩
  · intro v hv
    exact hv

/-- After `get_node`, the requested value is among the nodes (the map must
be sound for the hit case to guarantee this). -/
theorem mem_get_node_self (g : HashSetGraph) (w : TagGraphNode) (hs : MapSound g) :
    w ∈ (g.get_node w).1.graph.nodes := by
  unfold HashSetGraph.get_node
  cases hf : findIdx? g.map w with
  | some i => exact mem_of_get? _ _ _ (hs w i hf)
  | none =>
    simp only [StableGraphM.add_node]
    exact List.mem_append_right _ (List.mem_singleton.2 rfl)

/-- Attaching a tag to a target list only updates edges. -/
theorem regExt_attachTargets (t : Nat) (ts : List Nat) (g : HashSetGraph) :
    RegExt g (attachTargets t ts g) := by
  induction ts generalizing g with
  | nil => exact RegExt.refl g
  | cons a rest ih =>
    exact RegExt.trans (RegExt.trans (ext_updEdge g a t .HasTag)
      (ext_updEdge _ t a .TagAssignedTo)) (ih _)

/-- Processing one tag line extends the registry. -/
theorem regExt_attachTag (tagRoot : Nat) (targets : List Nat) (g : HashSetGraph)
    (tag : String) : RegExt g (attachTag tagRoot targets g tag) := by
  unfold attachTag
  exact RegExt.trans (ext_get_node_move g (.Tag tag))
    (RegExt.trans (RegExt.trans (ext_updEdge _ tagRoot _ .HasTag)
      (ext_updEdge _ tagRoot _ .HasTag)) (regExt_attachTargets _ targets _))

/-- Processing a tag file's lines extends the registry. -/
theorem regExt_attachTags (tagRoot : Nat) (targets : List Nat) (tags : List String)
    (g : HashSetGraph) : RegExt g (attachTags tagRoot targets tags g) := by
  induction tags generalizing g with
  | nil => exact RegExt.refl g
  | cons tag rest ih =>
    exact RegExt.trans (regExt_attachTag tagRoot targets g tag) (ih _)

/-- Collecting stem-match targets extends the registry. -/
theorem regExt_collectTargets (dirpath : List String) (stem : String)
    (ns : List String) (g : HashSetGraph) :
    RegExt g (collectTargets dirpath stem ns g).1 := by
  induction ns generalizing g with
  | nil => exact RegExt.refl g
  | cons n rest ih =>
    by_cases h1 : extOf n = some "tags"
    · simpa [collectTargets, h1] using ih g
    · by_cases h2 : fileStem n = stem ∨ n = stem
      · simp only [collectTargets, if_neg h1, if_pos h2]
        exact RegExt.trans (ext_get_node_move g (.File (dirpath ++ [n]))) (ih _)
      · simpa [collectTargets, h1, h2] using ih g

/-- A successful scan step extends the registry. -/
theorem regExt_scanStep (env : FsEnv) (tagRoot : Nat) (t : List String)
    (g g' : HashSetGraph) (h : scanStep env tagRoot t g = .ok g') :
    RegExt g g' := by
  unfold scanStep at h
  simp only [] at h
  split at h
  · exact absurd h (by simp)
  · split at h
    · simp only [RunResult.ok.injEq] at h
      subst h
      exact ext_get_node_move g _
    · split at h
      · split at h
        · exact absurd h (by simp)
        · simp only [RunResult.ok.injEq] at h
          subst h
          exact RegExt.trans (ext_get_node_move g _) (regExt_attachTags _ _ _ _)
      · split at h
        · exact absurd h (by simp)
        · split at h
          · exact absurd h (by simp)
          · simp only [RunResult.ok.injEq] at h
            subst h
            exact RegExt.trans (ext_get_node_move g _)
              (RegExt.trans (regExt_collectTargets _ _ _ _) (regExt_attachTags _ _ _ _))

/-- A successful scan loop extends the registry. -/
theorem regExt_scanLoop (env : FsEnv) (tagRoot : Nat)
    (s : List (Option (List String))) (g g' : HashSetGraph)
    (h : scanLoop env tagRoot s g = .ok g') : RegExt g g' := by
  induction s generalizing g with
  | nil =>
    simp only [scanLoop, RunResult.ok.injEq] at h
    subst h
    exact RegExt.refl g
  | cons item rest ih =>
    cases item with
    | none => exact absurd h (by simp [scanLoop])
    | some t =>
      simp only [scanLoop] at h
      split at h
      · next g1 hs => exact RegExt.trans (regExt_scanStep env tagRoot t g g1 hs) (ih _ h)
      · exact absurd h (by simp)
      · exact absurd h (by simp)

/-- A successful walk step extends the registry. -/
theorem regExt_walkStep (env : FsEnv) (dirRoot : Nat) (g g' : HashSetGraph)
    (item : Option (List String × Nat × Bool))
    (h : walkStep env dirRoot g item = .ok g') : RegExt g g' := by
  cases item with
  | none =>
    simp only [walkStep, RunResult.ok.injEq] at h
    subst h
    exact RegExt.refl g
  | some e =>
    obtain ⟨p, depth, isDir⟩ := e
    unfold walkStep at h
    simp only [] at h
    split at h
    · exact absurd h (by simp)
    · split at h
      · simp only [RunResult.ok.injEq] at h
        subst h
        exact RegExt.refl g
      · split at h
        · simp only [RunResult.ok.injEq] at h
          subst h
          cases isDir <;>
            exact RegExt.trans (ext_get_node_move g _)
              (RegExt.trans (ext_updEdge _ _ _ .Child) (ext_updEdge _ _ _ .Parent))
        · split at h
          · exact absurd h (by simp)
          · simp only [RunResult.ok.injEq] at h
            subst h
            cases isDir <;>
              exact RegExt.trans (ext_get_node_move g _)
                (RegExt.trans (ext_get_node_move _ _)
                  (RegExt.trans (ext_updEdge _ _ _ .Child) (ext_updEdge _ _ _ .Parent)))

/-- A successful walk loop extends the registry. -/
theorem regExt_walkLoop (env : FsEnv) (dirRoot : Nat)
    (s : List (Option (List String × Nat × Bool))) (g g' : HashSetGraph)
    (h : walkLoop env dirRoot s g = .ok g') : RegExt g g' := by
  induction s generalizing g with
  | nil =>
    simp only [walkLoop, RunResult.ok.injEq] at h
    subst h
    exact RegExt.refl g
  | cons item rest ih =>
    simp only [walkLoop] at h
    split at h
    · next g1 hs => exact RegExt.trans (regExt_walkStep env dirRoot g g1 item hs) (ih _ h)
    · exact absurd h (by simp)
    · exact absurd h (by simp)

/-- C10: every graph returned by a successful build contains exactly one
`RootTag` node and exactly one `RootDirectory` node — both anchors are
registered unconditionally at the start of their passes, and the registry
invariant keeps every value-equal node unique. -/
theorem c10_unique_root_nodes (env : FsEnv) (g : HashSetGraph)
    (h : get_tagged_files env = .ok g) :
    g.graph.nodes.count .RootTag = 1 ∧ g.graph.nodes.count .RootDirectory = 1 := by
  unfold get_tagged_files at h
  split at h
  case _ g1 h1 =>
    unfold add_tags_to_graph at h1
    simp only [] at h1
    split at h1
    · exact absurd h1 (by simp)
    · have e0 := ext_get_node HashSetGraph.new .RootTag
      have inv0 : InvReg (HashSetGraph.new.get_node .RootTag).1 := e0.1 invReg_new
      have m0 : TagGraphNode.RootTag ∈ (HashSetGraph.new.get_node .RootTag).1.graph.nodes :=
        mem_get_node_self _ _ invReg_new.1
      have e1 := regExt_scanLoop _ _ _ _ _ h1
      have inv1 : InvReg g1 := e1.1 inv0
      have m1 : TagGraphNode.RootTag ∈ g1.graph.nodes := e1.2 _ m0
      unfold add_file_structure_to_graph at h
      simp only [] at h
      have e2 := ext_get_node g1 .RootDirectory
      have inv2 : InvReg (g1.get_node .RootDirectory).1 := e2.1 inv1
      have m2 : TagGraphNode.RootDirectory ∈ (g1.get_node .RootDirectory).1.graph.nodes :=
        mem_get_node_self _ _ inv1.1
      have m1' : TagGraphNode.RootTag ∈ (g1.get_node .RootDirectory).1.graph.nodes :=
        e2.2 _ m1
      have e3 := regExt_walkLoop _ _ _ _ _ h
      have invg : InvReg g := e3.1 inv2
      have mtag : TagGraphNode.RootTag ∈ g.graph.nodes := e3.2 _ m1'
      have mdir : TagGraphNode.RootDirectory ∈ g.graph.nodes := e3.2 _ m2
      exact ⟨Nat.le_antisymm (invg.2.2 _) (List.count_pos_iff.2 mtag),
        Nat.le_antisymm (invg.2.2 _) (List.count_pos_iff.2 mdir)⟩
  case _ h1 => exact absurd h (by simp)
  case _ h1 => exact absurd h (by simp)

/-- A root directory with no entries at all. -/
def envEmpty : FsEnv := ⟨.nil, [], [], false⟩

/-- The graph a build over the empty root produces. -/
def emptyBuildGraph : HashSetGraph :=
  match get_tagged_files envEmpty with
  | .ok g => g
  | _ => HashSetGraph.new

/-- C10 witness: the build over an empty root succeeds and its graph holds
exactly one `RootTag` node and one `RootDirectory` node. -/
theorem c10_unique_root_nodes_witness :
    get_tagged_files envEmpty = .ok emptyBuildGraph
    ∧ (emptyBuildGraph.graph.nodes.count .RootTag = 1
      ∧ emptyBuildGraph.graph.nodes.count .RootDirectory = 1) :=
  ⟨by decide, c10_unique_root_nodes envEmpty emptyBuildGraph (by decide)⟩

/-- `get_node_move` keeps the map sound. -/
theorem mapSound_get_node_move (g : HashSetGraph) (w : TagGraphNode)
    (hs : MapSound g) : MapSound (g.get_node_move w).1 := by
  unfold HashSetGraph.get_node_move
  cases hf : findIdx? g.map w with
  | some i => exact hs
  | none =>
    simp only [StableGraphM.add_node]
    intro v i h
    simp only [findIdx?] at h
    by_cases hvw : w = v
    · subst hvw
      simp at h
      subst h
      exact get?_concat_self g.graph.nodes w
    · rw [if_neg (by simpa using hvw)] at h
      exact get?_append_left _ _ _ _ (hs v i h)

/-- `updEdge` keeps the map sound (nodes and map untouched). -/
theorem mapSound_updEdge (g : HashSetGraph) (a b : Nat) (w : Relation)
    (hs : MapSound g) : MapSound (g.updEdge a b w) :=
  fun v i h => hs v i h

/-- An index already recorded in the map survives `get_node_move`. -/
theorem find_pres_get_node_move (g : HashSetGraph) (w v : TagGraphNode) (i : Nat)
    (h : findIdx? g.map v = some i) :
    findIdx? (g.get_node_move w).1.map v = some i := by
  unfold HashSetGraph.get_node_move
  cases hf : findIdx? g.map w with
  | some j => exact h
  | none =>
    simp only [StableGraphM.add_node, findIdx?]
    have hvw : ¬ w = v := by
      intro hvw
      rw [hvw, h] at hf
      exact Option.noConfusion hf
    rw [if_neg (by simpa using hvw)]
    exact h

/-- After `get_node_move`, the requested value is findable at the returned
index. -/
theorem find_self_get_node_move (g : HashSetGraph) (w : TagGraphNode) :
    findIdx? (g.get_node_move w).1.map w = some (g.get_node_move w).2 := by
  unfold HashSetGraph.get_node_move
  cases hf : findIdx? g.map w with
  | some i => exact hf
  | none => simp [StableGraphM.add_node, findIdx?]

/-- `get_node_move` leaves the edge list untouched. -/
theorem edges_get_node_move (g : HashSetGraph) (w : TagGraphNode) :
    (g.get_node_move w).1.graph.edges = g.graph.edges := by
  unfold HashSetGraph.get_node_move
  cases hf : findIdx? g.map w with
  | some i => rfl
  | none => rfl

/-- No sibling name matches the tag file's stem: each is either another tag
file or has a different full name and a different stem. -/
abbrev NoMatch (ns : List String) (stem : String) : Prop :=
  ∀ nm ∈ ns, extOf nm = some "tags" ∨ (fileStem nm ≠ stem ∧ nm ≠ stem)

/-- When nothing matches the stem, target collection returns the registry
unchanged, no targets, and `found = false`. -/
theorem collectTargets_nomatch (dirpath : List String) (stem : String)
    (ns : List String) (g : HashSetGraph) (h : NoMatch ns stem) :
    collectTargets dirpath stem ns g = (g, [], false) := by
  induction ns with
  | nil => rfl
  | cons n rest ih =>
    have hrest : NoMatch rest stem := fun nm hm => h nm (List.mem_cons_of_mem n hm)
    rcases h n (List.mem_cons_self n rest) with hn | ⟨hn1, hn2⟩
    · simp [collectTargets, hn, ih hrest]
    · have hcond : ¬(fileStem n = stem ∨ n = stem) := by
        intro hc
        rcases hc with hc | hc
        · exact hn1 hc
        · exact hn2 hc
      by_cases he : extOf n = some "tags"
      · simp [collectTargets, he, ih hrest]
      · simp [collectTargets, he, hcond, ih hrest]

/-- Processing one tag line with an empty target list: the edges gain (or
refresh) only the tag-root wiring, while map and nodes change exactly as
`get_node_move` does. -/
theorem attachTag_empty (tagRoot : Nat) (g : HashSetGraph) (tag : String) :
    (attachTag tagRoot [] g tag).graph.edges
      = updateEdgeList
          (updateEdgeList g.graph.edges tagRoot (g.get_node_move (.Tag tag)).2 .HasTag)
          tagRoot (g.get_node_move (.Tag tag)).2 .HasTag
    ∧ (attachTag tagRoot [] g tag).map = (g.get_node_move (.Tag tag)).1.map
    ∧ (attachTag tagRoot [] g tag).graph.nodes
      = (g.get_node_move (.Tag tag)).1.graph.nodes := by
  refine ⟨?_, rfl, rfl⟩
  simp only [attachTag, attachTargets, HashSetGraph.updEdge, StableGraphM.update_edge]
  rw [edges_get_node_move]

/-- Attaching the lines of a tag file with an empty target list: the map
stays sound, recorded indices survive, every new edge leaves the tag root
with label `HasTag`, existing tag-root edges survive, and every processed
tag is registered and wired under the tag root. -/
theorem attachTags_empty_targets (tagRoot : Nat) (tags : List String)
    (g : HashSetGraph) (hs : MapSound g) :
    MapSound (attachTags tagRoot [] tags g)
    ∧ (∀ v i, findIdx? g.map v = some i →
        findIdx? (attachTags tagRoot [] tags g).map v = some i)
    ∧ (∀ e ∈ (attachTags tagRoot [] tags g).graph.edges,
        e ∈ g.graph.edges ∨ (e.src = tagRoot ∧ e.rel = .HasTag))
    ∧ (∀ ti, (⟨tagRoot, ti, .HasTag⟩ : GEdge) ∈ g.graph.edges →
        (⟨tagRoot, ti, .HasTag⟩ : GEdge) ∈ (attachTags tagRoot [] tags g).graph.edges)
    ∧ (∀ tag ∈ tags, ∃ ti,
        findIdx? (attachTags tagRoot [] tags g).map (.Tag tag) = some ti
        ∧ (⟨tagRoot, ti, .HasTag⟩ : GEdge) ∈ (attachTags tagRoot [] tags g).graph.edges) := by
  induction tags generalizing g with
  | nil =>
    refine ⟨hs, fun v i h => h, fun e he => Or.inl he, fun ti h => h, ?_⟩
    intro tag htag
    simp at htag
  | cons tag rest ih =>
    obtain ⟨hE, hM, hN⟩ := attachTag_empty tagRoot g tag
    have s1 : MapSound (attachTag tagRoot [] g tag) := by
      intro v i h
      rw [hM] at h
      rw [hN]
      exact mapSound_get_node_move g _ hs v i h
    have f1 : ∀ v i, findIdx? g.map v = some i →
        findIdx? (attachTag tagRoot [] g tag).map v = some i := by
      intro v i h
      rw [hM]
      exact find_pres_get_node_move g _ v i h
    have ftag : findIdx? (attachTag tagRoot [] g tag).map (.Tag tag)
        = some (g.get_node_move (.Tag tag)).2 := by
      rw [hM]
      exact find_self_get_node_move g _
    have etag : (⟨tagRoot, (g.get_node_move (.Tag tag)).2, .HasTag⟩ : GEdge)
        ∈ (attachTag tagRoot [] g tag).graph.edges := by
      rw [hE]
      exact updateEdgeList_mem_self _ _ _ _
    have e1 : ∀ e ∈ (attachTag tagRoot [] g tag).graph.edges,
        e ∈ g.graph.edges ∨ (e.src = tagRoot ∧ e.rel = .HasTag) := by
      intro e he
      rw [hE] at he
      rcases mem_of_updateEdgeList _ _ _ _ _ he with he' | rfl
      · rcases mem_of_updateEdgeList _ _ _ _ _ he' with he'' | rfl
        · exact Or.inl he''
        · exact Or.inr ⟨rfl, rfl⟩
      · exact Or.inr ⟨rfl, rfl⟩
    have p1 : ∀ ti, (⟨tagRoot, ti, .HasTag⟩ : GEdge) ∈ g.graph.edges →
        (⟨tagRoot, ti, .HasTag⟩ : GEdge) ∈ (attachTag tagRoot [] g tag).graph.edges := by
      intro ti h
      rw [hE]
      exact hasTag_edge_pres _ _ _ _ (hasTag_edge_pres _ _ _ _ h)
    obtain ⟨S, F, E, P, T⟩ := ih (attachTag tagRoot [] g tag) s1
    refine ⟨S, ?_, ?_, ?_, ?_⟩
    · intro v i h
      exact F v i (f1 v i h)
    · intro e he
      rcases E e he with he' | hroot
      · exact e1 e he'
      · exact Or.inr hroot
    · intro ti h
      exact P ti (p1 ti h)
    · intro tag' htag'
      rcases List.mem_cons.1 htag' with rfl | hmem
      · exact ⟨(g.get_node_move (.Tag tag')).2, F _ _ ftag, P _ etag⟩
      · exact T tag' hmem

/-- C7: a tag file whose stem-matching finds zero sibling targets is a
warning, not an error: the scan step succeeds and the loop continues; every
line of the tag file still gets its `Tag` node registered and a
RootTag-to-Tag `HasTag` edge; and zero target-attachment edges are created —
every edge added by the step leaves the tag root with label `HasTag`, so no
`HasTag`-from-target or `TagAssignedTo` edge appears. -/
theorem c7_zero_match_tagfile_continues (env : FsEnv) (tagRoot : Nat)
    (t : List String) (g : HashSetGraph) (nm : String) (ns : List String)
    (tags : List String)
    (hs : MapSound g)
    (hc : t ∉ env.canonFail)
    (hl : t.getLast? = some nm)
    (hnd : nm ≠ "dir.tags")
    (hrd : readDirNames env t.dropLast = some ns)
    (hnm : NoMatch ns (fileStem nm))
    (hrt : read_tagfile env t = some tags) :
    ∃ g', scanStep env tagRoot t g = .ok g'
      ∧ (∀ rest, scanLoop env tagRoot (some t :: rest) g = scanLoop env tagRoot rest g')
      ∧ (∀ tag ∈ tags, TagGraphNode.Tag tag ∈ g'.graph.nodes)
      ∧ (∀ tag ∈ tags, ∃ ti, findIdx? g'.map (.Tag tag) = some ti
          ∧ (⟨tagRoot, ti, .HasTag⟩ : GEdge) ∈ g'.graph.edges)
      ∧ (∀ e ∈ g'.graph.edges, e ∈ g.graph.edges ∨ (e.src = tagRoot ∧ e.rel = .HasTag)) := by
  have hcanon : canonicalize env t = some t := by simp [canonicalize, hc]
  have hcol := collectTargets_nomatch t.dropLast (fileStem nm) ns
    (g.get_node_move (.Directory t.dropLast)).1 hnm
  have hstep : scanStep env tagRoot t g
      = .ok (attachTags tagRoot [] tags (g.get_node_move (.Directory t.dropLast)).1) := by
    simp only [scanStep, hcanon, hl, hrd, hrt, if_neg hnd, hcol]
  obtain ⟨S, F, E, P, T⟩ := attachTags_empty_targets tagRoot tags
    (g.get_node_move (.Directory t.dropLast)).1 (mapSound_get_node_move g _ hs)
  refine ⟨_, hstep, ?_, ?_, T, ?_⟩
  · intro rest
    simp [scanLoop, hstep]
  · intro tag htag
    obtain ⟨ti, hfind, _⟩ := T tag htag
    exact mem_of_get? _ _ _ (S _ _ hfind)
  · intro e he
    rcases E e he with he' | hroot
    · rw [edges_get_node_move] at he'
      exact Or.inl he'
    · exact Or.inr hroot

/-- Root with the tag file `orphan.tags` (single line `x`) and a sibling
`other.png` that matches neither by name nor by stem. -/
def envOrphan : FsEnv :=
  ⟨.ofList [.file "orphan.tags" (some ["x"]), .file "other.png" (some [])], [], [], false⟩

/-- C7 witness: the orphan tag file's step succeeds, its tag is registered
and wired under the tag root, and no target-attachment edge is created. -/
theorem c7_zero_match_tagfile_witness :
    ∃ g', scanStep envOrphan 0 ["orphan.tags"] HashSetGraph.new = .ok g'
      ∧ (∀ rest, scanLoop envOrphan 0 (some ["orphan.tags"] :: rest) HashSetGraph.new
          = scanLoop envOrphan 0 rest g')
      ∧ (∀ tag ∈ ["x"], TagGraphNode.Tag tag ∈ g'.graph.nodes)
      ∧ (∀ tag ∈ ["x"], ∃ ti, findIdx? g'.map (.Tag tag) = some ti
          ∧ (⟨0, ti, .HasTag⟩ : GEdge) ∈ g'.graph.edges)
      ∧ (∀ e ∈ g'.graph.edges,
          e ∈ HashSetGraph.new.graph.edges ∨ (e.src = 0 ∧ e.rel = .HasTag)) :=
  c7_zero_match_tagfile_continues envOrphan 0 ["orphan.tags"] HashSetGraph.new
    "orphan.tags" ["orphan.tags", "other.png"] ["x"] invReg_new.1
    (by decide) (by decide) (by decide) (by decide) (by decide) (by decide)
